import Mathlib

/-!
Shallow embedding of the monad-tv-frame repository's frame codec
(`src/main.js`) and log-cache worker (Cloudflare worker source), with
theorems checking the natural-language specification's claims against it.

Byte strings are modelled as `List Nat` (each element a byte value),
pixel rasters as `List Nat` of grayscale intensities, and JS typed-array
reads that can throw `RangeError` as `Except Unit`/`Option` values.
-/

namespace MonadTvFrame

/-- `FRAME_WIDTH` constant from `src/main.js` (the raster is square). -/
def FRAME_WIDTH : Nat := 160

/-- `TOTAL_PIXELS = FRAME_WIDTH * FRAME_HEIGHT` from `src/main.js`. -/
def TOTAL_PIXELS : Nat := FRAME_WIDTH * FRAME_WIDTH

/-- One `(index, value)` change record of a delta frame. -/
abbrev DiffRecord := Nat × Nat

/-- `serializeDiff` from `src/main.js`: for each record, a little-endian
2-byte unsigned index (`DataView.setUint16(…, true)`, which truncates the
JS number to 16 bits) followed by one value byte (`setUint8`, truncating
to 8 bits).  3 bytes per record, no header. -/
def serializeDiff (diffArray : List DiffRecord) : List Nat :=
  diffArray.flatMap fun d => [d.1 % 256, d.1 / 256 % 256, d.2 % 256]

/-- Model of `DataView.getUint16(off, true)` on a view that starts at
byte 0 of `buffer`: little-endian read of two bytes, failing (JS
`RangeError`) when the read would cross the end of the buffer. -/
def dvGetUint16 (buffer : List Nat) (off : Nat) : Option Nat :=
  if off + 2 ≤ buffer.length then some (buffer.getD off 0 + 256 * buffer.getD (off + 1) 0)
  else none

/-- Model of `DataView.getUint8(off)` on a view starting at byte 0 of
`buffer`. -/
def dvGetUint8 (buffer : List Nat) (off : Nat) : Option Nat :=
  if off + 1 ≤ buffer.length then some (buffer.getD off 0) else none

/-- The loop of `deserializeDiff` from `src/main.js`.  The `DataView` is
constructed as `new DataView(uint8Array.buffer)` — over the WHOLE
underlying buffer, starting at byte 0, ignoring `uint8Array.byteOffset`
— while the loop guard compares `offset` against `uint8Array.byteLength`
(`viewLen` here).  For an array that owns its buffer the two coincide;
for a `subarray` they do not. -/
def deserializeDiffView (buffer : List Nat) (viewLen off : Nat) :
    Except Unit (List DiffRecord) :=
  if _h : off < viewLen then
    match dvGetUint16 buffer off with
    | none => .error ()
    | some index =>
      match dvGetUint8 buffer (off + 2) with
      | none => .error ()
      | some value =>
        match deserializeDiffView buffer viewLen (off + 3) with
        | .error e => .error e
        | .ok rest => .ok ((index, value) :: rest)
  else .ok []
termination_by viewLen - off
decreasing_by omega

/-- `deserializeDiff` from `src/main.js` applied to a `Uint8Array` that
owns its whole buffer (byteOffset 0, byteLength = buffer length), which
is how it is called everywhere except the grid-playback `subarray`. -/
def deserializeDiff (bytes : List Nat) : Except Unit (List DiffRecord) :=
  deserializeDiffView bytes bytes.length 0

/-- `diffFrames` from `src/main.js`: walks the pixels of the current
frame in raster order and emits `(index, currentValue)` when the
absolute grayscale difference exceeds 5.  A pixel index with no
counterpart in the previous frame compares `NaN > 5` in JS, which is
false, hence emits nothing — modelled by the bounds conjunct. -/
def diffFrames (current previous : List Nat) : List DiffRecord :=
  (List.range current.length).filterMap fun p =>
    if p < previous.length ∧
        5 < ((current.getD p 0 : Int) - (previous.getD p 0 : Int)).natAbs then
      some (p, current.getD p 0)
    else none

/-- The delta-application loop shared verbatim by the three
reconstruction sites in `src/main.js` (modal dynamic playback, static
preview, and `renderGridVideoFrame`): start from a copy of the base
raster and write `value` at `index` only when `index` is in bounds. -/
def applyDiffToCopy (base : List Nat) (diffs : List DiffRecord) : List Nat :=
  diffs.foldl (fun acc d => if d.1 < acc.length then acc.set d.1 d.2 else acc) base

/-! ### Supporting lemmas for the serializer -/

lemma length_serializeDiff (l : List DiffRecord) :
    (serializeDiff l).length = 3 * l.length := by
  induction l with
  | nil => rfl
  | cons d t ih =>
    simp only [serializeDiff, List.flatMap_cons, List.length_append,
      List.length_cons, List.length_nil] at *
    omega

lemma getD_append_right (p l : List Nat) (k : Nat) :
    (p ++ l).getD (p.length + k) 0 = l.getD k 0 := by
  simp [List.getD_eq_getElem?_getD,
    List.getElem?_append_right (Nat.le_add_right p.length k),
    Nat.add_sub_cancel_left]

lemma deser_serialize_append (diffs : List DiffRecord)
    (h : ∀ d ∈ diffs, d.1 < 65536 ∧ d.2 < 256) :
    ∀ p : List Nat,
      deserializeDiffView (p ++ serializeDiff diffs) (p.length + 3 * diffs.length)
        p.length = .ok diffs := by
  induction diffs with
  | nil =>
    intro p
    rw [deserializeDiffView]
    simp [serializeDiff]
  | cons d t ih =>
    intro p
    obtain ⟨hd1, hd2⟩ := h d (by simp)
    have hserl : (serializeDiff (d :: t)).length = 3 * (d :: t).length :=
      length_serializeDiff _
    have hcons : serializeDiff (d :: t) =
        [d.1 % 256, d.1 / 256 % 256, d.2 % 256] ++ serializeDiff t := by
      simp [serializeDiff, List.flatMap_cons]
    rw [deserializeDiffView]
    rw [dif_pos (by simp)]
    rw [hcons]
    have hlenbuf : (p ++ ([d.1 % 256, d.1 / 256 % 256, d.2 % 256] ++ serializeDiff t)).length
        = p.length + 3 + 3 * t.length := by
      simp [length_serializeDiff]; omega
    have hg0 : (p ++ ([d.1 % 256, d.1 / 256 % 256, d.2 % 256] ++ serializeDiff t)).getD
        (p.length + 0) 0 = d.1 % 256 := by rw [getD_append_right]; rfl
    have hg1 : (p ++ ([d.1 % 256, d.1 / 256 % 256, d.2 % 256] ++ serializeDiff t)).getD
        (p.length + 1) 0 = d.1 / 256 % 256 := by rw [getD_append_right]; rfl
    have hg2 : (p ++ ([d.1 % 256, d.1 / 256 % 256, d.2 % 256] ++ serializeDiff t)).getD
        (p.length + 2) 0 = d.2 % 256 := by rw [getD_append_right]; rfl
    rw [show p.length = p.length + 0 from rfl] at hg0
    simp only [dvGetUint16, dvGetUint8, hlenbuf]
    rw [if_pos (by omega)]
    rw [Nat.add_zero] at hg0
    rw [hg0, hg1, if_pos (by omega), hg2]
    have hrec : deserializeDiffView
        ((p ++ [d.1 % 256, d.1 / 256 % 256, d.2 % 256]) ++ serializeDiff t)
        ((p ++ [d.1 % 256, d.1 / 256 % 256, d.2 % 256]).length + 3 * t.length)
        (p ++ [d.1 % 256, d.1 / 256 % 256, d.2 % 256]).length = .ok t :=
      ih (fun d hd => h d (by simp [hd])) _
    have hlen3 : (p ++ [d.1 % 256, d.1 / 256 % 256, d.2 % 256]).length = p.length + 3 := by
      simp
    rw [hlen3] at hrec
    rw [List.append_assoc] at hrec
    have hview : p.length + 3 * (d :: t).length = p.length + 3 + 3 * t.length := by
      simp [List.length_cons]; omega
    rw [hview]
    rw [hrec]
    have hidx : d.1 % 256 + 256 * (d.1 / 256 % 256) = d.1 := by omega
    have hval : d.2 % 256 = d.2 := by omega
    rw [hidx, hval]

/-! ### Shape of `deserializeDiff` on arbitrary input -/

lemma deserializeDiffView_shape :
    ∀ n (bytes : List Nat) (off : Nat), bytes.length - off = n →
      (n % 3 ≠ 0 → deserializeDiffView bytes bytes.length off = .error ()) ∧
      (n % 3 = 0 → ∃ l, deserializeDiffView bytes bytes.length off = .ok l ∧
        l.length = n / 3) := by
  intro n
  induction n using Nat.strong_induction_on with
  | _ n ih =>
    intro bytes off hn
    rw [deserializeDiffView]
    by_cases hlt : off < bytes.length
    · rw [dif_pos hlt]
      by_cases h2 : off + 2 ≤ bytes.length
      · simp only [dvGetUint16, if_pos h2]
        by_cases h3 : off + 3 ≤ bytes.length
        · simp only [dvGetUint8, if_pos (by omega : off + 2 + 1 ≤ bytes.length)]
          have hrec := ih (n - 3) (by omega) bytes (off + 3) (by omega)
          by_cases hm : (n - 3) % 3 = 0
          · obtain ⟨l, hl, hlen⟩ := hrec.2 hm
            rw [hl]
            refine ⟨fun hne => absurd (show n % 3 = 0 by omega) hne,
              fun _ => ⟨_ :: l, rfl, ?_⟩⟩
            simp [hlen]; omega
          · rw [hrec.1 hm]
            exact ⟨fun _ => rfl, fun h0 => absurd h0 (by omega)⟩
        · simp only [dvGetUint8, if_neg (by omega : ¬ off + 2 + 1 ≤ bytes.length)]
          exact ⟨fun _ => trivial, fun h0 => absurd h0 (by omega)⟩
      · simp only [dvGetUint16, if_neg h2]
        exact ⟨fun _ => trivial, fun h0 => absurd h0 (by omega)⟩
    · rw [dif_neg hlt]
      have hn0 : n = 0 := by omega
      subst hn0
      exact ⟨fun hne => absurd rfl hne, fun _ => ⟨[], rfl, rfl⟩⟩

/-! ### Supporting lemmas for delta application -/

lemma applyDiffToCopy_cons (base : List Nat) (d : DiffRecord) (t : List DiffRecord) :
    applyDiffToCopy base (d :: t) =
      applyDiffToCopy (if d.1 < base.length then base.set d.1 d.2 else base) t := rfl

lemma applyDiffToCopy_length (diffs : List DiffRecord) :
    ∀ base : List Nat, (applyDiffToCopy base diffs).length = base.length := by
  induction diffs with
  | nil => intro base; rfl
  | cons d t ih =>
    intro base
    rw [applyDiffToCopy_cons]
    by_cases hd : d.1 < base.length
    · rw [if_pos hd, ih, List.length_set]
    · rw [if_neg hd, ih]

lemma applyDiffToCopy_filter (diffs : List DiffRecord) :
    ∀ base : List Nat, applyDiffToCopy base diffs =
      applyDiffToCopy base (diffs.filter fun d => decide (d.1 < base.length)) := by
  induction diffs with
  | nil => intro base; rfl
  | cons d t ih =>
    intro base
    by_cases hd : d.1 < base.length
    · rw [List.filter_cons_of_pos (by simpa using hd), applyDiffToCopy_cons,
        applyDiffToCopy_cons, if_pos hd, ih (base.set d.1 d.2)]
      congr 1
      exact List.filter_congr fun x _ => by simp
    · rw [List.filter_cons_of_neg (by simpa using hd), applyDiffToCopy_cons,
        if_neg hd, ih base]

lemma serializeDiff_bytes (diffs : List DiffRecord)
    (h : ∀ d ∈ diffs, d.1 < TOTAL_PIXELS ∧ d.2 ≤ 255) :
    serializeDiff diffs = diffs.flatMap (fun d => [d.1 % 256, d.1 / 256, d.2]) := by
  induction diffs with
  | nil => rfl
  | cons d t ih =>
    have hd1 : d.1 < TOTAL_PIXELS := (h d (by simp)).1
    have hd2 : d.2 ≤ 255 := (h d (by simp)).2
    have hTP : TOTAL_PIXELS = 25600 := rfl
    have ht := ih (fun x hx => h x (by simp [hx]))
    simp only [serializeDiff, List.flatMap_cons] at ht ⊢
    rw [ht, show d.1 / 256 % 256 = d.1 / 256 by omega, show d.2 % 256 = d.2 by omega]

/-! ### Claim theorems: serializer and diff extraction -/

/-- **C2.** Round-trip of the diff serializer: for any list of records
with each index below `S² = 25600` and each value in `[0, 255]`, the
serialized form is exactly 3 bytes per record — little-endian 2-byte
index followed by the value byte, with no header — and `deserializeDiff`
recovers exactly the same records in the same order. -/
theorem serializeDiff_roundtrip (diffs : List DiffRecord)
    (h : ∀ d ∈ diffs, d.1 < TOTAL_PIXELS ∧ d.2 ≤ 255) :
    (serializeDiff diffs).length = 3 * diffs.length ∧
    serializeDiff diffs = diffs.flatMap (fun d => [d.1 % 256, d.1 / 256, d.2]) ∧
    deserializeDiff (serializeDiff diffs) = .ok diffs := by
  have h' : ∀ d ∈ diffs, d.1 < 65536 ∧ d.2 < 256 := by
    intro d hd
    have := h d hd
    have hTP : TOTAL_PIXELS = 25600 := rfl
    omega
  refine ⟨length_serializeDiff diffs, serializeDiff_bytes diffs h, ?_⟩
  have := deser_serialize_append diffs h' []
  simpa [deserializeDiff, length_serializeDiff] using this

/-- Witness for C2, at the spec's own scenario record `(42, 200)`. -/
theorem serializeDiff_roundtrip_witness :
    (serializeDiff [(42, 200)]).length = 3 * [(42, 200)].length ∧
    serializeDiff [(42, 200)] =
      [((42 : Nat), (200 : Nat))].flatMap (fun d => [d.1 % 256, d.1 / 256, d.2]) ∧
    deserializeDiff (serializeDiff [(42, 200)]) = .ok [(42, 200)] :=
  serializeDiff_roundtrip [(42, 200)] (by decide)

/-- **C6.** `deserializeDiff` fails exactly when the byte length is not
a multiple of 3 (the JS code hits an out-of-bounds `DataView` read,
surfaced as the malformed-diff failure), and otherwise decodes the full
sequence of `length / 3` three-byte records without failure. -/
theorem deserializeDiff_malformed (bytes : List Nat) :
    (bytes.length % 3 ≠ 0 → deserializeDiff bytes = .error ()) ∧
    (bytes.length % 3 = 0 →
      ∃ l, deserializeDiff bytes = .ok l ∧ l.length = bytes.length / 3) := by
  have := deserializeDiffView_shape bytes.length bytes 0 (by omega)
  simpa [deserializeDiff] using this

/-- Witness for C6: a 2-byte input fails, a 3-byte input decodes. -/
theorem deserializeDiff_malformed_witness :
    deserializeDiff [1, 2] = .error () ∧
    ∃ l, deserializeDiff [5, 0, 7] = .ok l ∧ l.length = ([5, 0, 7] : List Nat).length / 3 :=
  ⟨(deserializeDiff_malformed [1, 2]).1 (by decide),
   (deserializeDiff_malformed [5, 0, 7]).2 (by decide)⟩

/-- **C3.** `diffFrames` on two full rasters emits a record `(i, current[i])`
for exactly the pixel indices where the absolute grayscale difference
exceeds 5 — no more, no fewer — and the records come out in ascending
raster-scan index order. -/
theorem diffFrames_exact (c p : List Nat)
    (hc : c.length = TOTAL_PIXELS) (hp : p.length = TOTAL_PIXELS) :
    (∀ i v, (i, v) ∈ diffFrames c p ↔
        i < TOTAL_PIXELS ∧ v = c.getD i 0 ∧
          5 < ((c.getD i 0 : Int) - (p.getD i 0 : Int)).natAbs) ∧
    (diffFrames c p).Pairwise (fun a b => a.1 < b.1) := by
  constructor
  · intro i v
    simp only [diffFrames, List.mem_filterMap, List.mem_range]
    constructor
    · rintro ⟨a, ha, hfa⟩
      split at hfa
      · rename_i hcond
        obtain ⟨h1, h2⟩ := Prod.mk.injEq .. ▸ Option.some.injEq .. ▸ hfa
        subst h1
        exact ⟨by omega, h2.symm ▸ rfl, hcond.2⟩
      · exact absurd hfa (by simp)
    · rintro ⟨hi, hv, habs⟩
      refine ⟨i, by omega, ?_⟩
      rw [if_pos ⟨by omega, habs⟩, hv]
  · refine List.Pairwise.filterMap _ ?_ (List.pairwise_lt_range c.length)
    intro a a' hlt b hb b' hb'
    have hba : b.1 = a := by
      by_cases hcond : a < p.length ∧
          5 < ((c.getD a 0 : Int) - (p.getD a 0 : Int)).natAbs
      · rw [if_pos hcond, Option.mem_def, Option.some.injEq] at hb
        rw [← hb]
      · rw [if_neg hcond] at hb; simp at hb
    have hba' : b'.1 = a' := by
      by_cases hcond : a' < p.length ∧
          5 < ((c.getD a' 0 : Int) - (p.getD a' 0 : Int)).natAbs
      · rw [if_pos hcond, Option.mem_def, Option.some.injEq] at hb'
        rw [← hb']
      · rw [if_neg hcond] at hb'; simp at hb'
    rw [hba, hba']
    exact hlt

/-- Witness for C3: instantiated at two all-equal rasters of `S²`
pixels, whose length hypotheses are discharged concretely. -/
theorem diffFrames_exact_witness :
    (List.replicate TOTAL_PIXELS 100).length = TOTAL_PIXELS ∧
    (diffFrames (List.replicate TOTAL_PIXELS 100)
        (List.replicate TOTAL_PIXELS 100)).Pairwise (fun a b => a.1 < b.1) :=
  ⟨List.length_replicate ..,
   (diffFrames_exact (List.replicate TOTAL_PIXELS 100) (List.replicate TOTAL_PIXELS 100)
      (List.length_replicate ..) (List.length_replicate ..)).2⟩

/-- **C10.** The shared delta-application loop never writes outside the
base raster: records with out-of-range indices are silently skipped (the
result only depends on the in-range records), and the output raster has
exactly the base raster's length. -/
theorem applyDiffToCopy_safe (base : List Nat) (diffs : List DiffRecord) :
    (applyDiffToCopy base diffs).length = base.length ∧
    applyDiffToCopy base diffs =
      applyDiffToCopy base (diffs.filter fun d => decide (d.1 < base.length)) :=
  ⟨applyDiffToCopy_length diffs base, applyDiffToCopy_filter diffs base⟩

/-! ### Grid playback of a remote clip (`renderGridVideoFrame`) -/

/-- The offset loop of `renderGridVideoFrame`:
`for (let i = 0; i < diffIndexInArray; i++) offset += diffLengths[i]`. -/
def gridDiffOffset (diffLengths : List Nat) (i : Nat) : Nat :=
  (diffLengths.take i).foldl (· + ·) 0

/-- The bytes of
`player.decompressedDiffsBlob.subarray(offset, offset + currentDiffLength)`
for delta `i` (0-based), with JS `subarray` clamping. -/
def gridDeltaBytes (blob diffLengths : List Nat) (i : Nat) : List Nat :=
  (blob.drop (gridDiffOffset diffLengths i)).take (diffLengths.getD i 0)

/-- The records `renderGridVideoFrame` actually decodes for delta `i`:
`deserializeDiff(serializedDiff)` where `serializedDiff` is a `subarray`
view of the blob.  `deserializeDiff` builds
`new DataView(uint8Array.buffer)` over the WHOLE underlying blob
starting at byte 0 (the subarray's `byteOffset` is never applied), while
its loop bound is the subarray's `byteLength`. -/
def gridDecodedRecords (blob diffLengths : List Nat) (i : Nat) :
    Except Unit (List DiffRecord) :=
  deserializeDiffView blob (gridDeltaBytes blob diffLengths i).length 0

/-- The P-frame step of `renderGridVideoFrame` for frame index `i + 1`:
decode delta `i` and apply it onto a copy of the previous frame's pixel
data (a decode failure is caught and nothing is rendered). -/
def renderGridDeltaFrame (blob diffLengths : List Nat) (i : Nat)
    (prev : List Nat) : Option (List Nat) :=
  match gridDecodedRecords blob diffLengths i with
  | .error _ => none
  | .ok diffs => some (applyDiffToCopy prev diffs)

/-- **C1 (bug demonstration).** At the spec's own scenario
`diffLengths = [3, 6]` with a 9-byte decompressed blob, the serialized
bytes of delta 1 are indeed the slice `[3, 9)` of the blob, and decoding
that slice yields `[(11, 30), (12, 40)]`; but the records the code
decodes and applies are `[(10, 20), (11, 30)]` — read from bytes
`[0, 6)` of the blob, because `deserializeDiff`'s `DataView` ignores the
subarray's byte offset.  The reconstructed frame therefore differs from
the one the claim describes. -/
theorem gridDelta_decodes_wrong_bytes :
    gridDeltaBytes [10, 0, 20, 11, 0, 30, 12, 0, 40] [3, 6] 1 =
      [11, 0, 30, 12, 0, 40] ∧
    deserializeDiff (gridDeltaBytes [10, 0, 20, 11, 0, 30, 12, 0, 40] [3, 6] 1) =
      .ok [(11, 30), (12, 40)] ∧
    gridDecodedRecords [10, 0, 20, 11, 0, 30, 12, 0, 40] [3, 6] 1 =
      .ok [(10, 20), (11, 30)] ∧
    renderGridDeltaFrame [10, 0, 20, 11, 0, 30, 12, 0, 40] [3, 6] 1
        (List.replicate 16 0) =
      some (applyDiffToCopy (List.replicate 16 0) [(10, 20), (11, 30)]) ∧
    applyDiffToCopy (List.replicate 16 0) [(10, 20), (11, 30)] ≠
      applyDiffToCopy (List.replicate 16 0) [(11, 30), (12, 40)] := by
  refine ⟨by decide, ?_, ?_, ?_, by decide⟩
  · simp [deserializeDiff, gridDeltaBytes, gridDiffOffset, deserializeDiffView,
      dvGetUint16, dvGetUint8]
  · simp [gridDecodedRecords, gridDeltaBytes, gridDiffOffset, deserializeDiffView,
      dvGetUint16, dvGetUint8]
  · simp [renderGridDeltaFrame, gridDecodedRecords, gridDeltaBytes, gridDiffOffset,
      deserializeDiffView, dvGetUint16, dvGetUint8]

/-! ### Modal sequential playback and its loop reset -/

/-- A locally captured frame (an entry of `recordedFrames` in
`src/main.js`): either a compressed full frame or the raw serialized
bytes of a diff. -/
inductive RecordedFrame where
  | full (compressedData : List Nat)
  | rawDiff (serializedData : List Nat)
deriving Repr, DecidableEq

/-- The dynamic-playback branch of `reconstructAndDrawFrame`
(`isStaticPreview = false`).  `pako.inflate` is an external
decompressor, modelled as a function parameter.  Returns the rendered
raster (if any) together with the updated
`reconstructedModalPlaybackFrame` reference. -/
def reconstructDynamic (inflate : List Nat → List Nat)
    (recordedFrames : List RecordedFrame) (f : RecordedFrame)
    (ref : Option (List Nat)) : Option (List Nat) × Option (List Nat) :=
  match f with
  | .full data =>
    let px := inflate data
    (some px, some px)
  | .rawDiff ser =>
    match deserializeDiff ser with
    | .error _ => (none, ref)
    | .ok diffArray =>
      let base? := match ref with
        | some r => some r
        | none => recordedFrames.findSome? fun fr =>
            match fr with
            | .full d => some (inflate d)
            | .rawDiff _ => none
      match base? with
      | none => (none, ref)
      | some base =>
        let res := applyDiffToCopy base diffArray
        (some res, some res)

/-- State of the modal playback interval: the frame counter and the
global `reconstructedModalPlaybackFrame` reference. -/
structure ModalPlaybackState where
  currentFrameIndex : Nat
  ref : Option (List Nat)
deriving Repr, DecidableEq

/-- One tick of the `playbackInterval` callback installed by the modal
play button: on wrap (`currentFrameIndex >= recordedFrames.length`) the
index returns to 0 and the playback reference is reset to `null` before
the frame is decoded. -/
def playbackTick (inflate : List Nat → List Nat)
    (recordedFrames : List RecordedFrame) (s : ModalPlaybackState) :
    ModalPlaybackState × Option (List Nat) :=
  let idx := if recordedFrames.length ≤ s.currentFrameIndex then 0
    else s.currentFrameIndex
  let ref := if recordedFrames.length ≤ s.currentFrameIndex then none
    else s.ref
  match recordedFrames.get? idx with
  | none => (⟨idx, ref⟩, none)
  | some f =>
    let (rendered, ref') := reconstructDynamic inflate recordedFrames f ref
    (⟨idx + 1, ref'⟩, rendered)

/-- **C4.** When sequential playback wraps (index at or past the end),
the state reference is reset before frame 0 is decoded: the tick renders
exactly what the very first tick from the initial state `⟨0, none⟩`
renders — the fresh decompression of the baseline — regardless of any
residual reference carried in from the previous loop. -/
theorem playback_loop_reset (inflate : List Nat → List Nat)
    (recordedFrames : List RecordedFrame) (data : List Nat)
    (ref : Option (List Nat)) (n : Nat)
    (h0 : recordedFrames.get? 0 = some (.full data))
    (hn : recordedFrames.length ≤ n) :
    (playbackTick inflate recordedFrames ⟨n, ref⟩).2 =
      (playbackTick inflate recordedFrames ⟨0, none⟩).2 ∧
    (playbackTick inflate recordedFrames ⟨n, ref⟩).2 = some (inflate data) ∧
    (playbackTick inflate recordedFrames ⟨n, ref⟩).1 = ⟨1, some (inflate data)⟩ := by
  have hlen : 0 < recordedFrames.length := by
    cases recordedFrames with
    | nil => simp at h0
    | cons a t => simp
  have h0' : recordedFrames.get? (if recordedFrames.length ≤ n then 0 else n) =
      some (.full data) := by rw [if_pos hn]; exact h0
  have h0'' : recordedFrames.get? (if recordedFrames.length ≤ 0 then 0 else 0) =
      some (.full data) := by simpa using h0
  simp only [playbackTick, if_pos hn, if_neg (by omega : ¬ recordedFrames.length ≤ 0), h0,
    reconstructDynamic]
  exact ⟨trivial, trivial, trivial⟩

/-- Witness for C4: a two-frame clip, wrap state with a stale residual
reference. -/
theorem playback_loop_reset_witness :
    (playbackTick (fun bs => bs) [.full [7, 8], .rawDiff []]
        ⟨2, some [9, 9]⟩).2 =
      (playbackTick (fun bs => bs) [.full [7, 8], .rawDiff []] ⟨0, none⟩).2 ∧
    (playbackTick (fun bs => bs) [.full [7, 8], .rawDiff []]
        ⟨2, some [9, 9]⟩).2 = some [7, 8] ∧
    (playbackTick (fun bs => bs) [.full [7, 8], .rawDiff []]
        ⟨2, some [9, 9]⟩).1 = ⟨1, some [7, 8]⟩ :=
  playback_loop_reset (fun bs => bs) [.full [7, 8], .rawDiff []] [7, 8]
    (some [9, 9]) 2 rfl (by decide)

/-! ### Grid slot population (`loadAndDisplayGridVideos`) -/

/-- A display cell: either the synthetic noise player or a remote clip
player (identified here by its `firstFrame` bytes). -/
inductive GridPlayer where
  | noise : GridPlayer
  | clip (firstFrame : List Nat) : GridPlayer
deriving Repr, DecidableEq

/-- The per-user loop of `loadAndDisplayGridVideos`.  `clips` holds each
fetched clip's `firstFrame`, `none` when the field is falsy; a hex
string `'0x'` or one decoding to zero bytes is the empty byte list.  An
invalid clip is skipped with `continue` (the slot keeps its noise
player, the counter does not advance); a valid one replaces the noise
player at position `loaded` and advances the counter. -/
def fillGridAux (total : Nat) : Nat → List (Option (List Nat)) → List GridPlayer →
    List GridPlayer
  | _, [], slots => slots
  | loaded, c :: rest, slots =>
    if total ≤ loaded then slots
    else
      match c with
      | none => fillGridAux total loaded rest slots
      | some bs =>
        if bs.length = 0 then fillGridAux total loaded rest slots
        else
          let slots' :=
            if loaded < slots.length ∧ slots.getD loaded .noise = .noise then
              slots.set loaded (.clip bs)
            else slots
          fillGridAux total (loaded + 1) rest slots'

/-- **C9 (counterexample).** A clip whose `firstFrame` is the single
zero byte (`'0x00'` — nonempty but all-zero) is NOT excluded: it
replaces the noise player in its grid slot, although the claim says an
all-zero `firstFrame` is treated as absent and the slot keeps the noise
player. -/
theorem gridValidity_allzero_not_excluded :
    (([0] : List Nat).all fun b => decide (b = 0)) = true ∧
    fillGridAux 1 0 [some [0]] [.noise] = [.clip [0]] ∧
    fillGridAux 1 0 [some [0]] [.noise] ≠ [.noise] := by
  refine ⟨by decide, rfl, by decide⟩

/-- **C9 (amended).** A remote clip whose `firstFrame` is missing or
empty is excluded from the display grid: a batch consisting only of such
clips leaves every slot exactly as it was (noise slots keep their noise
players).  The check does not inspect the byte content, so all-zero but
nonempty first frames are not excluded. -/
theorem gridValidity_empty_excluded (total : Nat)
    (clips : List (Option (List Nat)))
    (h : ∀ c ∈ clips, c = none ∨ c = some []) :
    ∀ loaded (slots : List GridPlayer),
      fillGridAux total loaded clips slots = slots := by
  induction clips with
  | nil => intro loaded slots; rfl
  | cons c rest ih =>
    intro loaded slots
    rcases h c (by simp) with hc | hc <;> subst hc <;>
      by_cases ht : total ≤ loaded <;>
        simp [fillGridAux, ht, ih (fun x hx => h x (by simp [hx]))]

/-- Witness for the amended C9: two invalid clips (missing and empty
first frame) leave a single noise slot untouched. -/
theorem gridValidity_empty_excluded_witness :
    fillGridAux 9 0 [none, some []] [.noise] = [.noise] :=
  gridValidity_empty_excluded 9 [none, some []] (by decide) 0 [.noise]

/-! ### The log-cache worker (Cloudflare worker source)

`LogEntry` models one `VideoClipUpdated` log; addresses, hashes and
big-integer fields are modelled as `Nat`. -/

structure LogEntry where
  user : Nat
  fid : Nat
  timestamp : Nat
  blockNumber : Nat
  logIndex : Nat
  transactionHash : Nat
deriving Repr, DecidableEq

/-- The three-key comparator of the worker's final sort, as the
"may come first" relation: `cmp a b ≤ 0` for the JS comparator
(timestamp descending, then block number descending, then log index
descending). -/
def logLE (a b : LogEntry) : Bool :=
  if a.timestamp ≠ b.timestamp then decide (b.timestamp < a.timestamp)
  else if a.blockNumber ≠ b.blockNumber then decide (b.blockNumber < a.blockNumber)
  else decide (b.logIndex ≤ a.logIndex)

/-- The timestamp-only comparator of the worker's up-to-date return path
(`baseLogs.sort((a,b) => Number(b.args.timestamp) - Number(a.args.timestamp))`). -/
def tsLE (a b : LogEntry) : Bool :=
  decide (b.timestamp ≤ a.timestamp)

/-- Stable insertion of one entry into an already sorted list — ties
keep the inserted element first, matching the stability guarantee of
`Array.prototype.sort`. -/
def insertSortedBy (le : LogEntry → LogEntry → Bool) (a : LogEntry) :
    List LogEntry → List LogEntry
  | [] => [a]
  | b :: l => if le a b then a :: b :: l else b :: insertSortedBy le a l

/-- Stable sort modelling `Array.prototype.sort` with a comparator. -/
def sortLogsBy (le : LogEntry → LogEntry → Bool) : List LogEntry → List LogEntry
  | [] => []
  | a :: l => insertSortedBy le a (sortLogsBy le l)

/-- The worker's final three-key sort. -/
def sortLogs : List LogEntry → List LogEntry := sortLogsBy logLE

/-- The worker's timestamp-only sort on the cached-up-to-date path. -/
def sortByTs : List LogEntry → List LogEntry := sortLogsBy tsLE

/-- The dedup signature `` `${log.transactionHash}-${log.logIndex}` ``. -/
def logSig (e : LogEntry) : Nat × Nat := (e.transactionHash, e.logIndex)

/-- The dedup loop: walk the sorted list, keep an entry only when its
signature has not been seen. -/
def dedupBySig (seen : List (Nat × Nat)) : List LogEntry → List LogEntry
  | [] => []
  | e :: l =>
    if logSig e ∈ seen then dedupBySig seen l
    else e :: dedupBySig (logSig e :: seen) l

/-- The worker's "final sort and deduplication" of the combined logs. -/
def mergedLogs (l : List LogEntry) : List LogEntry :=
  dedupBySig [] (sortLogs l)

lemma logLE_iff (a b : LogEntry) : logLE a b = true ↔
    (b.timestamp < a.timestamp ∨ (a.timestamp = b.timestamp ∧
      (b.blockNumber < a.blockNumber ∨ (a.blockNumber = b.blockNumber ∧
        b.logIndex ≤ a.logIndex)))) := by
  unfold logLE
  by_cases h1 : a.timestamp = b.timestamp <;>
    by_cases h2 : a.blockNumber = b.blockNumber <;>
      simp [h1, h2] <;> omega

lemma logLE_total (a b : LogEntry) : logLE a b = true ∨ logLE b a = true := by
  rw [logLE_iff, logLE_iff]; omega

lemma logLE_trans {a b c : LogEntry} (hab : logLE a b = true)
    (hbc : logLE b c = true) : logLE a c = true := by
  rw [logLE_iff] at hab hbc ⊢; omega

lemma tsLE_total (a b : LogEntry) : tsLE a b = true ∨ tsLE b a = true := by
  unfold tsLE; simp; omega

lemma tsLE_trans {a b c : LogEntry} (hab : tsLE a b = true)
    (hbc : tsLE b c = true) : tsLE a c = true := by
  unfold tsLE at *; simp at *; omega

lemma perm_insertSortedBy (le : LogEntry → LogEntry → Bool) (a : LogEntry) :
    ∀ l, (insertSortedBy le a l).Perm (a :: l) := by
  intro l
  induction l with
  | nil => exact List.Perm.refl _
  | cons b t ih =>
    rw [insertSortedBy]
    by_cases h : le a b
    · rw [if_pos h]
    · rw [if_neg h]
      exact ((ih.cons b).trans (List.Perm.swap a b t))

lemma perm_sortLogsBy (le : LogEntry → LogEntry → Bool) :
    ∀ l, (sortLogsBy le l).Perm l := by
  intro l
  induction l with
  | nil => exact List.Perm.refl _
  | cons a t ih =>
    rw [sortLogsBy]
    exact (perm_insertSortedBy le a _).trans (ih.cons a)

lemma pairwise_insertSortedBy (le : LogEntry → LogEntry → Bool)
    (htotal : ∀ a b, le a b = true ∨ le b a = true)
    (htrans : ∀ {a b c}, le a b = true → le b c = true → le a c = true)
    (a : LogEntry) :
    ∀ l, l.Pairwise (fun x y => le x y = true) →
      (insertSortedBy le a l).Pairwise (fun x y => le x y = true) := by
  intro l
  induction l with
  | nil => intro _; simp [insertSortedBy]
  | cons b t ih =>
    intro h
    obtain ⟨hb, ht⟩ := List.pairwise_cons.mp h
    rw [insertSortedBy]
    by_cases hab : le a b
    · rw [if_pos hab]
      refine List.pairwise_cons.mpr ⟨?_, h⟩
      intro x hx
      rcases List.mem_cons.mp hx with rfl | hx
      · exact hab
      · exact htrans hab (hb x hx)
    · rw [if_neg hab]
      refine List.pairwise_cons.mpr ⟨?_, ih ht⟩
      intro x hx
      have hmem := (perm_insertSortedBy le a t).mem_iff.mp hx
      rcases List.mem_cons.mp hmem with hxa | hx'
      · rw [hxa]
        rcases htotal a b with h' | h'
        · exact absurd h' (by simpa using hab)
        · exact h'
      · exact hb x hx'

lemma pairwise_sortLogsBy (le : LogEntry → LogEntry → Bool)
    (htotal : ∀ a b, le a b = true ∨ le b a = true)
    (htrans : ∀ {a b c}, le a b = true → le b c = true → le a c = true) :
    ∀ l, (sortLogsBy le l).Pairwise (fun x y => le x y = true) := by
  intro l
  induction l with
  | nil => simp [sortLogsBy]
  | cons a t ih =>
    rw [sortLogsBy]
    exact pairwise_insertSortedBy le htotal (fun h h' => htrans h h') a _ ih

lemma dedupBySig_filter (s : Nat × Nat) :
    ∀ (l : List LogEntry) (seen : List (Nat × Nat)),
      (dedupBySig seen l).filter (fun e => decide (logSig e = s)) =
        if s ∈ seen then [] else (l.find? (fun e => decide (logSig e = s))).toList := by
  intro l
  induction l with
  | nil => intro seen; by_cases h : s ∈ seen <;> simp [dedupBySig, h]
  | cons e t ih =>
    intro seen
    rw [dedupBySig]
    by_cases hmem : logSig e ∈ seen
    · rw [if_pos hmem, ih seen]
      by_cases hs : s ∈ seen
      · simp [hs]
      · have hne : ¬ logSig e = s := fun h => hs (h ▸ hmem)
        simp [hs, List.find?_cons, hne]
    · rw [if_neg hmem]
      by_cases hes : logSig e = s
      · subst hes
        rw [List.filter_cons_of_pos (by simp), ih (logSig e :: seen)]
        rw [if_pos (List.mem_cons_self _ _), if_neg hmem]
        simp [List.find?_cons]
      · have hse : ¬ s = logSig e := fun h => hes h.symm
        rw [List.filter_cons_of_neg (by simpa using hes), ih (logSig e :: seen)]
        by_cases hs : s ∈ seen
        · simp [hs, List.mem_cons]
        · simp [hs, hse, List.mem_cons, List.find?_cons, hes]

/-- **C5.** The merged log set contains exactly one entry per
`(transactionHash, logIndex)` identity — for every signature, the
entries of `mergedLogs` with that signature are exactly the first
occurrence (if any) in the stably sorted combined list — where the sort
is a stable permutation ordered by timestamp descending, then block
number descending, then log index descending.  This holds in particular
when the same entry arrives both from a cache tier (`base`) and from the
RPC fetch (`fetched`). -/
theorem mergedLogs_unique_per_sig (base fetched : List LogEntry) :
    (∀ s : Nat × Nat,
      (mergedLogs (base ++ fetched)).filter (fun e => decide (logSig e = s)) =
        ((sortLogs (base ++ fetched)).find?
            (fun e => decide (logSig e = s))).toList) ∧
    (sortLogs (base ++ fetched)).Perm (base ++ fetched) ∧
    (sortLogs (base ++ fetched)).Pairwise (fun a b => logLE a b = true) := by
  refine ⟨fun s => ?_, perm_sortLogsBy logLE _,
    pairwise_sortLogsBy logLE logLE_total (fun h h' => logLE_trans h h') _⟩
  rw [mergedLogs, dedupBySig_filter s (sortLogs (base ++ fetched)) []]
  simp

/-- `BLOCK_RANGE_LIMIT` from the worker (provider limit per `getLogs`). -/
def BLOCK_RANGE_LIMIT : Nat := 1000

/-- `INITIAL_LOOKBACK_BLOCKS` from the worker. -/
def INITIAL_LOOKBACK_BLOCKS : Nat := 10000

/-- The worker's chunked `getLogs` loop.  `rpc from to` is the
block-range query; `none` models a thrown `chunkError`, which the
`catch` logs and skips — the loop then continues with the next chunk.
Returns the list of queried ranges together with the concatenation of
the successfully fetched logs. -/
def fetchChunks (rpc : Nat → Nat → Option (List LogEntry))
    (current latest : Nat) : List (Nat × Nat) × List LogEntry :=
  if _h : current ≤ latest then
    let chunkTo := min (current + (BLOCK_RANGE_LIMIT - 1)) latest
    let got := (rpc current chunkTo).getD []
    if chunkTo = latest then ([(current, chunkTo)], got)
    else
      let rest := fetchChunks rpc (chunkTo + 1) latest
      ((current, chunkTo) :: rest.1, got ++ rest.2)
  else ([], [])
termination_by latest + 1 - current
decreasing_by simp_wf; omega

/-- The chunk boundaries of the loop, independent of any query
outcome. -/
def chunkRanges (current latest : Nat) : List (Nat × Nat) :=
  if _h : current ≤ latest then
    let chunkTo := min (current + (BLOCK_RANGE_LIMIT - 1)) latest
    if chunkTo = latest then [(current, chunkTo)]
    else (current, chunkTo) :: chunkRanges (chunkTo + 1) latest
  else []
termination_by latest + 1 - current
decreasing_by simp_wf; omega

/-- **C8.** The chunked log fetch is best-effort and never aborts: it is
a total function whose attempted chunk ranges are exactly the fixed
chunking of the block interval — independent of which queries fail —
and whose result is the concatenation of the logs of exactly the
successful chunks (a failed chunk contributes nothing and the remaining
chunks are still attempted). -/
theorem fetchChunks_best_effort (rpc : Nat → Nat → Option (List LogEntry))
    (current latest : Nat) :
    (fetchChunks rpc current latest).1 = chunkRanges current latest ∧
    (fetchChunks rpc current latest).2 =
      (chunkRanges current latest).flatMap (fun r => (rpc r.1 r.2).getD []) := by
  generalize hm : latest + 1 - current = m
  induction m using Nat.strong_induction_on generalizing current with
  | _ m ih =>
    rw [fetchChunks, chunkRanges]
    by_cases h : current ≤ latest
    · rw [dif_pos h, dif_pos h]
      by_cases he : min (current + (BLOCK_RANGE_LIMIT - 1)) latest = latest
      · simp only [he, if_pos rfl]
        simp
      · simp only [if_neg he]
        have hlim : BLOCK_RANGE_LIMIT = 1000 := rfl
        have hrec := ih (latest + 1 - (min (current + (BLOCK_RANGE_LIMIT - 1)) latest + 1))
          (by omega) (min (current + (BLOCK_RANGE_LIMIT - 1)) latest + 1) rfl
        constructor
        · simp [hrec.1]
        · simp [hrec.2]
    · rw [dif_neg h, dif_neg h]
      simp

/-- A persisted cache tier (`historical` or `recent`): its logs and the
block height it covers (`fetchedUpToBlock` / `cachedUpToBlock`). -/
structure Snapshot where
  logs : List LogEntry
  covered : Nat
deriving Repr, DecidableEq

/-- Observable outcome of one worker request: the returned logs, the
returned `cachedUpToBlock`, and the block ranges passed to `getLogs`. -/
structure WorkerResult where
  logs : List LogEntry
  cachedUpToBlock : Nat
  queried : List (Nat × Nat)
deriving Repr, DecidableEq

/-- The part of the worker after the base tier is chosen: decide the
query window, run the chunk loop, merge, sort and dedup.  The branches
mirror the worker's `effectiveCachedUpToBlock > 0n` tests: a covered
height of 0 is treated as "no cache" and falls into the bounded initial
lookback (which resets the base to `[]`). -/
def workerFetchCore (base : List LogEntry) (covered head : Nat)
    (rpc : Nat → Nat → Option (List LogEntry)) : WorkerResult :=
  if 0 < covered ∧ covered < head then
    let fetched := fetchChunks rpc (covered + 1) head
    let finalLogs := if fetched.2.isEmpty then base else base ++ fetched.2
    ⟨mergedLogs finalLogs, head, fetched.1⟩
  else if 0 < covered ∧ head ≤ covered then
    ⟨sortByTs base, covered, []⟩
  else
    let fetched := fetchChunks rpc (head - (INITIAL_LOOKBACK_BLOCKS - 1)) head
    let finalLogs := if fetched.2.isEmpty then ([] : List LogEntry) else fetched.2
    ⟨mergedLogs finalLogs, head, fetched.1⟩

/-- One worker request (`fetch` handler), after the RPC head block is
known: load the historical tier, prefer the recent tier when its
covered height is at least the historical one, return the recent
payload verbatim when it already covers the head, and otherwise run the
core reconciliation. -/
def workerFetch (hist recent : Option Snapshot) (head : Nat)
    (rpc : Nat → Nat → Option (List LogEntry)) : WorkerResult :=
  let base₀ : List LogEntry := match hist with | some h => h.logs | none => []
  let covered₀ : Nat := match hist with | some h => h.covered | none => 0
  match recent with
  | some r =>
    if covered₀ ≤ r.covered then
      if head ≤ r.covered then ⟨r.logs, r.covered, []⟩
      else workerFetchCore r.logs r.covered head rpc
    else workerFetchCore base₀ covered₀ head rpc
  | none => workerFetchCore base₀ covered₀ head rpc

/-- The base tier the worker chooses: the recent tier when present and
at least as fresh as the historical one, otherwise the historical
tier. -/
def chosenBase (hist recent : Option Snapshot) : Option Snapshot :=
  match hist, recent with
  | some h, some r => if h.covered ≤ r.covered then some r else some h
  | some h, none => some h
  | none, some r => some r
  | none, none => none

/-- **C7 (amended).** When the chosen base tier's covered height is
positive and at least the chain head, the worker issues no `getLogs`
query and returns the base tier's entries (as a permutation — the
recent tier is returned verbatim, the historical tier after the
timestamp-descending sort) with the covered height unchanged; the
result is timestamp-descending sorted whenever the cached tier was. -/
theorem worker_upToDate_no_fetch (hist recent : Option Snapshot) (head : Nat)
    (rpc : Nat → Nat → Option (List LogEntry)) (b : Snapshot)
    (hb : chosenBase hist recent = some b) (hpos : 0 < b.covered)
    (hhead : head ≤ b.covered) :
    (workerFetch hist recent head rpc).queried = [] ∧
    (workerFetch hist recent head rpc).cachedUpToBlock = b.covered ∧
    (workerFetch hist recent head rpc).logs.Perm b.logs ∧
    (b.logs.Pairwise (fun x y => tsLE x y = true) →
      (workerFetch hist recent head rpc).logs.Pairwise
        (fun x y => tsLE x y = true)) := by
  match hist, recent with
  | none, none => simp [chosenBase] at hb
  | none, some r =>
    have hbr : r = b := by simpa [chosenBase] using hb
    subst hbr
    simp only [workerFetch]
    rw [if_pos (Nat.zero_le _), if_pos hhead]
    exact ⟨rfl, rfl, List.Perm.refl _, fun hp => hp⟩
  | some hs, none =>
    have hbh : hs = b := by simpa [chosenBase] using hb
    subst hbh
    simp only [workerFetch, workerFetchCore]
    rw [if_neg (by omega), if_pos ⟨hpos, hhead⟩]
    exact ⟨rfl, rfl, perm_sortLogsBy tsLE _,
      fun _ => pairwise_sortLogsBy tsLE tsLE_total
        (fun hx hy => tsLE_trans hx hy) _⟩
  | some hs, some r =>
    by_cases hc : hs.covered ≤ r.covered
    · have hbr : r = b := by simpa [chosenBase, hc] using hb
      subst hbr
      simp only [workerFetch]
      rw [if_pos hc, if_pos hhead]
      exact ⟨rfl, rfl, List.Perm.refl _, fun hp => hp⟩
    · have hbh : hs = b := by simpa [chosenBase, hc] using hb
      subst hbh
      simp only [workerFetch]
      rw [if_neg hc]
      simp only [workerFetchCore]
      rw [if_neg (by omega), if_pos ⟨hpos, hhead⟩]
      exact ⟨rfl, rfl, perm_sortLogsBy tsLE _,
        fun _ => pairwise_sortLogsBy tsLE tsLE_total
          (fun hx hy => tsLE_trans hx hy) _⟩

/-- A sample log entry for concrete instantiations. -/
def sampleEntry : LogEntry := ⟨1, 2, 3, 4, 5, 6⟩

/-- Witness for the amended C7: a recent tier covering through block 5
with head 3 is returned with no query and its covered height intact. -/
theorem worker_upToDate_no_fetch_witness :
    (workerFetch none (some ⟨[sampleEntry], 5⟩) 3 (fun _ _ => some [])).queried = [] ∧
    (workerFetch none (some ⟨[sampleEntry], 5⟩) 3
        (fun _ _ => some [])).cachedUpToBlock =
      (⟨[sampleEntry], 5⟩ : Snapshot).covered ∧
    (workerFetch none (some ⟨[sampleEntry], 5⟩) 3
        (fun _ _ => some [])).logs.Perm (⟨[sampleEntry], 5⟩ : Snapshot).logs ∧
    ((⟨[sampleEntry], 5⟩ : Snapshot).logs.Pairwise (fun x y => tsLE x y = true) →
      (workerFetch none (some ⟨[sampleEntry], 5⟩) 3
          (fun _ _ => some [])).logs.Pairwise (fun x y => tsLE x y = true)) :=
  worker_upToDate_no_fetch none (some ⟨[sampleEntry], 5⟩) 3 (fun _ _ => some [])
    ⟨[sampleEntry], 5⟩ rfl (by decide) (by decide)

/-- **C7 (counterexample).** The claim as stated fails at the edge the
code's `effectiveCachedUpToBlock > 0n` sentinel conflates with "no
cache": a historical tier whose covered height is 0 with chain head 0
satisfies "covered height ≥ head", yet the worker resets the base,
performs the bounded initial lookback — issuing the `getLogs` chunk
`(0, 0)` — and drops the tier's entries from the response. -/
theorem worker_upToDate_zero_covered_cex :
    chosenBase (some ⟨[sampleEntry], 0⟩) none = some ⟨[sampleEntry], 0⟩ ∧
    (⟨[sampleEntry], 0⟩ : Snapshot).covered ≥ 0 ∧
    (workerFetch (some ⟨[sampleEntry], 0⟩) none 0
        (fun _ _ => some [])).queried = [(0, 0)] ∧
    (workerFetch (some ⟨[sampleEntry], 0⟩) none 0
        (fun _ _ => some [])).logs = [] := by
  refine ⟨rfl, Nat.zero_le _, ?_, ?_⟩ <;>
    simp [workerFetch, workerFetchCore, fetchChunks, mergedLogs, sortLogs,
      sortLogsBy, dedupBySig, INITIAL_LOOKBACK_BLOCKS, BLOCK_RANGE_LIMIT]

end MonadTvFrame
